import Mathlib

/-!
Verification development for the `Web_Crawler_Scraper_Version-2` repository
(an AliExpress category scraper).  The Python sources are shallowly embedded:

* Python strings are modelled as `String` / `List Char`;
* Python `None` and fall-through returns are modelled with `Option`;
* the external collaborators (Bright Data HTTP transport, Playwright page
  parsing) are modelled as oracle functions supplied as parameters;
* `float` arithmetic of the retry-delay computation is modelled over `ℚ`,
  with Python's `round(x, 2)` modelled as round-half-to-even on hundredths;
* the `asyncio` run of `scrape_pages` is modelled by its linearized
  (sequential, page-ordered) semantics: the admission block of a worker
  contains no suspension point, so admissions are atomic in the source.
-/

namespace Scraper

/-! ### Character-list helpers: Python `str.strip`, substring test (`in`) -/

/-- Model of Python `str.strip()`: drop whitespace from both ends. -/
def stripChars (cs : List Char) : List Char :=
  ((cs.dropWhile Char.isWhitespace).reverse.dropWhile Char.isWhitespace).reverse

/-- Model of Python `needle in hay` on strings. -/
def containsSeq (needle : List Char) : List Char → Bool
  | [] => needle.isEmpty
  | c :: rest => needle.isPrefixOf (c :: rest) || containsSeq needle rest

lemma dropWhile_eq_self_of_all {α : Type} {p : α → Bool} {l : List α}
    (h : ∀ c ∈ l, ¬ p c = true) : l.dropWhile p = l := by
  cases l with
  | nil => rfl
  | cons c rest =>
    rw [List.dropWhile_cons, if_neg (h c (List.mem_cons_self c rest))]

lemma stripChars_eq_self {l : List Char} (h : ∀ c ∈ l, ¬ c.isWhitespace = true) :
    stripChars l = l := by
  unfold stripChars
  rw [dropWhile_eq_self_of_all h,
    dropWhile_eq_self_of_all (fun c hc => h c (List.mem_reverse.mp hc)),
    List.reverse_reverse]

lemma isDigit_not_isWhitespace {c : Char} (h : c.isDigit = true) :
    ¬ c.isWhitespace = true := by
  intro hw
  simp [Char.isWhitespace] at hw
  rcases hw with ((h1 | h1) | h1) | h1 <;> subst h1 <;> simp [Char.isDigit] at h

/-! ### `scraper/utils.py` -/

/-- Characters kept by `re.sub(r'[^\d.,]', '', text)` in `clean_price`. -/
def priceKeep (c : Char) : Bool := c.isDigit || c == '.' || c == ','

/-- Model of Python `.replace(',', '.')` applied characterwise. -/
def commaToDot (c : Char) : Char := if c = ',' then '.' else c

/-- Characters that may appear in a `clean_price` result: digits and dots. -/
def priceOut (c : Char) : Bool := c.isDigit || c == '.'

/-- Shallow embedding of `clean_price` (scraper/utils.py, lines 7-14):
`None`/empty input gives `None`; otherwise keep only digits, commas and dots,
turn commas into dots, and return `None` instead of an empty result. -/
def clean_price (text : Option String) : Option String :=
  match text with
  | none => none
  | some t =>
    if t = "" then none
    else
      let cleaned := (t.data.filter priceKeep).map commaToDot
      if cleaned = [] then none else some (String.mk (stripChars cleaned))

/-- Characters matched by `[,\d]` in the `extract_sold_count` regex. -/
def soldKeep (c : Char) : Bool := c.isDigit || c == ','

/-- Bool test for a character different from a comma. -/
def notComma (c : Char) : Bool := !(c == ',')

/-- First match of the regex `(\d+[,\d]*)`: scan to the first digit, then
take the maximal run of digits and commas. -/
def firstSoldRun : List Char → Option (List Char)
  | [] => none
  | c :: rest =>
    if c.isDigit then some (c :: rest.takeWhile soldKeep) else firstSoldRun rest

/-- Shallow embedding of `extract_sold_count` (scraper/utils.py, lines 16-20):
`re.search(r'(\d+[,\d]*)', text or "")`, returning `"0"` on no match and the
matched group with commas removed otherwise. -/
def extract_sold_count (text : Option String) : String :=
  match firstSoldRun (text.getD "").data with
  | none => "0"
  | some run => String.mk (run.filter notComma)

lemma firstSoldRun_shape {cs run : List Char} (h : firstSoldRun cs = some run) :
    ∃ d t, run = d :: t ∧ d.isDigit = true ∧ ∀ c ∈ t, soldKeep c = true := by
  induction cs with
  | nil => simp [firstSoldRun] at h
  | cons c rest ih =>
    by_cases hd : c.isDigit = true
    · rw [firstSoldRun, if_pos hd] at h
      refine ⟨c, rest.takeWhile soldKeep, (Option.some_injective _ h).symm, hd, ?_⟩
      exact fun x hx => List.mem_takeWhile_imp hx
    · rw [firstSoldRun, if_neg hd] at h
      exact ih h

lemma firstSoldRun_eq_none {cs : List Char} (h : ∀ c ∈ cs, ¬ c.isDigit = true) :
    firstSoldRun cs = none := by
  induction cs with
  | nil => rfl
  | cons c rest ih =>
    rw [firstSoldRun, if_neg (h c (List.mem_cons_self c rest))]
    exact ih (fun x hx => h x (List.mem_cons_of_mem c hx))

lemma head?_dropWhile {α : Type} {p : α → Bool} {l : List α} {s : α}
    (h : (l.dropWhile p).head? = some s) : p s = false := by
  induction l with
  | nil => simp [List.dropWhile] at h
  | cons c rest ih =>
    rw [List.dropWhile_cons] at h
    by_cases hc : p c = true
    · rw [if_pos hc] at h
      exact ih h
    · rw [if_neg hc] at h
      simp at h
      subst h
      exact Bool.eq_false_iff.mpr hc

lemma firstSoldRun_decomp {cs run : List Char} (h : firstSoldRun cs = some run) :
    ∃ pre suf, cs = pre ++ run ++ suf ∧ (∀ c ∈ pre, ¬ c.isDigit = true) ∧
      (∀ s, suf.head? = some s → soldKeep s = false) := by
  induction cs with
  | nil => simp [firstSoldRun] at h
  | cons c rest ih =>
    by_cases hd : c.isDigit = true
    · rw [firstSoldRun, if_pos hd] at h
      refine ⟨[], rest.dropWhile soldKeep, ?_, by simp, ?_⟩
      · have := List.takeWhile_append_dropWhile soldKeep rest
        rw [← Option.some_injective _ h]
        simp only [List.nil_append, List.cons_append]
        rw [this]
      · exact fun s hs => head?_dropWhile hs
    · rw [firstSoldRun, if_neg hd] at h
      obtain ⟨pre, suf, hcs, hpre, hsuf⟩ := ih h
      exact ⟨c :: pre, suf, by rw [hcs]; rfl,
        fun x hx => by
          rcases List.mem_cons.mp hx with rfl | hx
          · exact hd
          · exact hpre x hx, hsuf⟩

lemma digit_notComma {c : Char} (h : c.isDigit = true) : notComma c = true := by
  unfold notComma
  by_cases hb : c = ','
  · subst hb
    simp [Char.isDigit] at h
  · simp [hb]

/-- C7: for every raw sold-count candidate (possibly absent), the result is
the first run of digits (commas inside the run stripped), a non-empty string
of digits denoting a non-negative integer; absence of any digit run gives
`"0"`, the field's default. -/
theorem c7_sold_count_normalization (text : Option String) :
    (extract_sold_count text ≠ "" ∧
      ∀ c ∈ (extract_sold_count text).data, c.isDigit = true) ∧
    ((∀ c ∈ (text.getD "").data, ¬ c.isDigit = true) → extract_sold_count text = "0") ∧
    (∀ run, firstSoldRun (text.getD "").data = some run →
      ∃ pre suf d t, (text.getD "").data = pre ++ run ++ suf ∧
        (∀ c ∈ pre, ¬ c.isDigit = true) ∧
        run = d :: t ∧ d.isDigit = true ∧ (∀ c ∈ t, soldKeep c = true) ∧
        (∀ s, suf.head? = some s → soldKeep s = false) ∧
        extract_sold_count text = String.mk (run.filter notComma)) := by
  refine ⟨?_, ?_, ?_⟩
  · cases hfr : firstSoldRun (text.getD "").data with
    | none =>
      have he : extract_sold_count text = "0" := by
        unfold extract_sold_count
        rw [hfr]
      rw [he]
      exact ⟨by decide, by decide⟩
    | some run =>
      have he : extract_sold_count text = String.mk (run.filter notComma) := by
        unfold extract_sold_count
        rw [hfr]
      obtain ⟨d, t, hrun, hd, ht⟩ := firstSoldRun_shape hfr
      subst hrun
      rw [he]
      constructor
      · intro hemp
        have hdata : (d :: t).filter notComma = [] := congrArg String.data hemp
        rw [List.filter_cons, if_pos (digit_notComma hd)] at hdata
        simp at hdata
      · intro c hc
        have hc2 : c ∈ (d :: t).filter notComma := hc
        have hmem := List.mem_filter.mp hc2
        rcases List.mem_cons.mp hmem.1 with rfl | hct
        · exact hd
        · have hsk := ht c hct
          unfold soldKeep at hsk
          rcases Bool.or_eq_true_iff.mp hsk with h1 | h1
          · exact h1
          · exfalso
            have hcc : c = ',' := beq_iff_eq.mp h1
            subst hcc
            have := hmem.2
            unfold notComma at this
            simp at this
  · intro hnd
    unfold extract_sold_count
    rw [firstSoldRun_eq_none hnd]
  · intro run hfr
    obtain ⟨pre, suf, hcs, hpre, hsuf⟩ := firstSoldRun_decomp hfr
    obtain ⟨d, t, hrun, hd, ht⟩ := firstSoldRun_shape hfr
    refine ⟨pre, suf, d, t, hcs, hpre, hrun, hd, ht, hsuf, ?_⟩
    unfold extract_sold_count
    rw [hfr]

/-- C7 witness: on an input with no digit run the default `"0"` is returned. -/
theorem c7_sold_count_normalization_witness :
    extract_sold_count (some "sold out") = "0" :=
  (c7_sold_count_normalization (some "sold out")).2.1 (by decide)

lemma priceKeep_commaToDot_priceOut {b : Char} (h : priceKeep b = true) :
    priceOut (commaToDot b) = true := by
  unfold priceKeep at h
  unfold commaToDot priceOut
  by_cases hb : b = ','
  · rw [if_pos hb]; rfl
  · rw [if_neg hb]
    rcases Bool.or_eq_true_iff.mp h with h1 | h1
    · exact h1
    · exact absurd (beq_iff_eq.mp h1) hb

lemma priceOut_not_ws {c : Char} (h : priceOut c = true) :
    ¬ c.isWhitespace = true := by
  unfold priceOut at h
  rcases Bool.or_eq_true_iff.mp h with h1 | h1
  · exact isDigit_not_isWhitespace h1
  · have : c = '.' := beq_iff_eq.mp h1
    subst this
    decide

/-- C8: price normalization keeps exactly the digits, commas and dots of the
input, turns commas into dots, and yields `none` (never the empty string)
exactly when nothing is left after stripping. -/
theorem c8_price_normalization (text : Option String) :
    (clean_price text = none ↔ (text.getD "").data.filter priceKeep = []) ∧
    (∀ s, clean_price text = some s →
      s.data = ((text.getD "").data.filter priceKeep).map commaToDot ∧
      s ≠ "" ∧ ∀ c ∈ s.data, priceOut c = true) := by
  have hout : ∀ t : String, ∀ c ∈ (t.data.filter priceKeep).map commaToDot,
      priceOut c = true := by
    intro t c hc
    obtain ⟨b, hb, hbc⟩ := List.mem_map.mp hc
    rw [← hbc]
    exact priceKeep_commaToDot_priceOut (List.mem_filter.mp hb).2
  have hstrip : ∀ t : String,
      stripChars ((t.data.filter priceKeep).map commaToDot) =
        (t.data.filter priceKeep).map commaToDot := by
    intro t
    exact stripChars_eq_self (fun c hc => priceOut_not_ws (hout t c hc))
  constructor
  · cases text with
    | none => simp [clean_price, Option.getD]
    | some t =>
      by_cases ht : t = ""
      · subst ht
        simp [clean_price, Option.getD]
      · constructor
        · intro h
          rw [clean_price, if_neg ht] at h
          by_cases hcl : (t.data.filter priceKeep).map commaToDot = []
          · exact List.map_eq_nil_iff.mp hcl
          · rw [if_neg hcl] at h
            exact absurd h (Option.some_ne_none _)
        · intro h
          rw [clean_price, if_neg ht]
          have : (t.data.filter priceKeep).map commaToDot = [] := by
            rw [show (t.data.filter priceKeep) = [] from h]
            rfl
          rw [if_pos this]
  · intro s hs
    cases text with
    | none => simp [clean_price] at hs
    | some t =>
      by_cases ht : t = ""
      · subst ht
        simp [clean_price] at hs
      · rw [clean_price, if_neg ht] at hs
        by_cases hcl : (t.data.filter priceKeep).map commaToDot = []
        · rw [if_pos hcl] at hs
          exact absurd hs.symm (Option.some_ne_none _)
        · rw [if_neg hcl] at hs
          have hsd : s = String.mk (stripChars ((t.data.filter priceKeep).map commaToDot)) :=
            (Option.some_injective _ hs).symm
          rw [hstrip t] at hsd
          subst hsd
          refine ⟨rfl, ?_, fun c hc => hout t c hc⟩
          intro hemp
          have hnil : (t.data.filter priceKeep).map commaToDot = [] :=
            congrArg String.data hemp
          exact hcl hnil

/-! ### `scraper/config.py`: `Config.calculate_retry_delay` -/

/-- Round-half-to-even to an integer, as Python's builtin `round` does. -/
def roundHalfEven (q : ℚ) : ℤ :=
  if q - ⌊q⌋ < 1/2 then ⌊q⌋
  else if 1/2 < q - ⌊q⌋ then ⌊q⌋ + 1
  else if 2 ∣ ⌊q⌋ then ⌊q⌋ else ⌊q⌋ + 1

/-- Python `round(q, 2)`: round half to even on hundredths. -/
def round2 (q : ℚ) : ℚ := (roundHalfEven (q * 100) : ℚ) / 100

/-- Shallow embedding of `Config.calculate_retry_delay` (scraper/config.py,
lines 72-84) over `ℚ`: `round(min(base * factor ** (attempt - 1)
+ uniform(0, RETRY_JITTER), RETRY_MAX_DELAY), 2)`.  The parameter `j` stands
for the value drawn by `uniform(0, RETRY_JITTER)`. -/
def calculate_retry_delay (base factor maxDelay : ℚ) (attempt : ℕ) (j : ℚ) : ℚ :=
  round2 (min (base * factor ^ (attempt - 1) + j) maxDelay)

lemma roundHalfEven_le {q : ℚ} {k : ℤ} (h : q ≤ (k : ℚ)) : roundHalfEven q ≤ k := by
  have hfl : ⌊q⌋ ≤ k := by
    have h2 := Int.floor_le_floor h
    rwa [Int.floor_intCast] at h2
  have hstep : ¬ (q - ⌊q⌋ < 1/2) → ⌊q⌋ + 1 ≤ k := by
    intro h1
    by_contra hk
    push_neg at hk
    have hk2 : k ≤ ⌊q⌋ := by omega
    have hk3 : (k : ℚ) ≤ (⌊q⌋ : ℚ) := by exact_mod_cast hk2
    have hfq : (⌊q⌋ : ℚ) ≤ q := Int.floor_le q
    have : q - ⌊q⌋ < 1/2 := by linarith
    exact h1 this
  unfold roundHalfEven
  split_ifs with h1 h2 h3
  · exact hfl
  · exact hstep h1
  · exact hfl
  · exact hstep h1

lemma round2_le {y : ℚ} {k : ℤ} (h : y ≤ (k : ℚ) / 100) : round2 y ≤ (k : ℚ) / 100 := by
  unfold round2
  have h100 : y * 100 ≤ (k : ℚ) := (le_div_iff₀ (by norm_num)).mp h
  have hr := roundHalfEven_le h100
  have hrq : ((roundHalfEven (y * 100) : ℤ) : ℚ) ≤ (k : ℚ) := by exact_mod_cast hr
  linarith

/-- C5: for every attempt `a ≥ 1` and every jitter draw `j ∈ [0, jitterMax]`,
the computed retry delay is at most `maxDelay` (for any `maxDelay` that is a
whole number of hundredths, as the configured `30.0` is), and the uncapped
value `base * factor ^ (a - 1) + j` is bounded below by
`base * factor ^ (a - 1)`. -/
theorem c5_retry_delay_bounds (base factor jitterMax maxDelay : ℚ) (a : ℕ) (j : ℚ)
    (ha : 1 ≤ a) (hj0 : 0 ≤ j) (hjm : j ≤ jitterMax) (k : ℤ)
    (hmd : maxDelay = (k : ℚ) / 100) :
    calculate_retry_delay base factor maxDelay a j ≤ maxDelay ∧
    base * factor ^ (a - 1) ≤ base * factor ^ (a - 1) + j := by
  constructor
  · unfold calculate_retry_delay
    subst hmd
    exact round2_le (min_le_right _ _)
  · linarith

/-- C5 witness: the default configuration (base 2, factor 2, jitter cap 1,
max delay 30), attempt 3, drawn jitter 1/2. -/
theorem c5_retry_delay_bounds_witness :
    calculate_retry_delay 2 2 30 3 (1/2) ≤ 30 ∧
    (2 : ℚ) * 2 ^ (3 - 1) ≤ 2 * 2 ^ (3 - 1) + 1/2 :=
  c5_retry_delay_bounds 2 2 1 30 3 (1/2) (by norm_num) (by norm_num) (by norm_num)
    3000 (by norm_num)

/-! ### A generic bounded retry loop

Both `fetch_via_brightdata` (scraper/brightdata.py, lines 30-64) and
`scrape_single_page` (scraper/aliexpress_scraper.py, lines 87-140) run
`for attempt in range(1, limit + 1)` and return the first successful
attempt immediately, falling through to a failure value after the last
attempt.  `retryLoop att a fuel` models such a loop starting at attempt
number `a` with `fuel` attempts remaining; it returns the first success (if
any) together with the number of attempts actually made. -/

def retryLoop {α : Type} (att : Nat → Option α) : Nat → Nat → Option α × Nat
  | _, 0 => (none, 0)
  | a, fuel+1 =>
    match att a with
    | some x => (some x, 1)
    | none =>
      if fuel = 0 then (none, 1)
      else
        let r := retryLoop att (a+1) fuel
        (r.1, r.2 + 1)

lemma retryLoop_succ {α : Type} (att : Nat → Option α) (a n : Nat) :
    retryLoop att a (n+1) =
      match att a with
      | some x => (some x, 1)
      | none =>
        if n = 0 then (none, 1)
        else ((retryLoop att (a+1) n).1, (retryLoop att (a+1) n).2 + 1) := rfl

lemma retryLoop_count_le {α : Type} (att : Nat → Option α) :
    ∀ fuel a, (retryLoop att a fuel).2 ≤ fuel := by
  intro fuel
  induction fuel with
  | zero => intro a; exact le_refl 0
  | succ n ih =>
    intro a
    rw [retryLoop_succ]
    cases hpa : att a with
    | some x => simp
    | none =>
      by_cases hn : n = 0
      · simp [hn]
      · simp only [hn, if_false]
        have := ih (a+1)
        omega

lemma retryLoop_first_success {α : Type} (att : Nat → Option α) {k : Nat} {x : α} :
    ∀ fuel a, a ≤ k → k < a + fuel → att k = some x →
      (∀ b, a ≤ b → b < k → att b = none) →
      retryLoop att a fuel = (some x, k - a + 1) := by
  intro fuel
  induction fuel with
  | zero => intro a h1 h2 _ _; omega
  | succ n ih =>
    intro a hak hkf hk hprev
    rw [retryLoop_succ]
    by_cases hae : a = k
    · subst hae
      rw [hk, Nat.sub_self, Nat.zero_add]
    · have ha : att a = none := hprev a (le_refl a) (by omega)
      rw [ha]
      have hn : n ≠ 0 := by omega
      rw [if_neg hn]
      have hrec := ih (a+1) (by omega) (by omega) hk (fun b hb1 hb2 => hprev b (by omega) hb2)
      rw [hrec]
      have : k - (a+1) + 1 + 1 = k - a + 1 := by omega
      simp [this]

lemma retryLoop_all_fail {α : Type} (att : Nat → Option α) :
    ∀ fuel a, (∀ b, a ≤ b → b < a + fuel → att b = none) →
      retryLoop att a fuel = (none, fuel) := by
  intro fuel
  induction fuel with
  | zero => intro a _; rfl
  | succ n ih =>
    intro a hfail
    rw [retryLoop_succ, hfail a (le_refl a) (by omega)]
    by_cases hn : n = 0
    · simp [hn]
    · rw [if_neg hn, ih (a+1) (fun b hb1 hb2 => hfail b (by omega) (by omega))]

/-! ### `scraper/brightdata.py`: `fetch_via_brightdata` -/

/-- The outcome of one `requests.post` call: a raised exception, or a
response with a status code and a body text. -/
inductive PostResult
  | exn
  | resp (status : Int) (text : String)

/-- The acceptance test of one loop iteration of `fetch_via_brightdata`
(scraper/brightdata.py, lines 40-46): status 200, and the stripped body is
non-empty and contains `"<html"` case-insensitively.  Exceptions and bad
statuses are caught and lead to the next attempt. -/
def postOk : PostResult → Option String
  | PostResult.exn => none
  | PostResult.resp status text =>
    if status = 200 then
      let html := String.mk (stripChars text.data)
      if html ≠ "" ∧ containsSeq ("<html".data) (html.data.map Char.toLower) = true
      then some html
      else none
    else none

/-- Shallow embedding of `fetch_via_brightdata` (scraper/brightdata.py,
lines 30-64): up to `maxRetries` posts, first accepted response returned
immediately, `None` after exhaustion.  `post a` is the outcome of the
`requests.post` call of attempt `a`; the second component counts the posts
made. -/
def fetch_via_brightdata (post : Nat → PostResult) (maxRetries : Nat) :
    Option String × Nat :=
  retryLoop (fun a => postOk (post a)) 1 maxRetries

/-! ### `scraper/aliexpress_scraper.py`: `scrape_single_page` -/

/-- A harvested record; only the fields the orchestration engine inspects
are modelled (`product_url` drives dedup; the rest is opaque payload). -/
structure Record where
  product_url : Option String
  product_title : String
deriving DecidableEq

/-- Outcome of one page pipeline's fetch phase: success with parsed
records (the `return products` path) or failure after exhausting the
retries (the `return []` path). -/
inductive FetchOutcome
  | success (products : List Record)
  | failure
deriving DecidableEq

/-- One attempt of the `scrape_single_page` loop (lines 88-128): `fetch a`
is what `fetch_via_brightdata` returned on attempt `a` (`none` for Python
`None`); the html is rejected when falsy or missing the `"<html"` marker
(case-sensitive, line 92); `parsePage` models Playwright rendering plus
`parse_products_from_page`, `none` standing for a raised selector timeout
(lines 110-116).  Any of these failures is caught by the `except` branch. -/
def pageAttempt (fetch : Nat → Option String)
    (parsePage : String → Option (List Record)) (a : Nat) : Option (List Record) :=
  match fetch a with
  | none => none
  | some h =>
    if h = "" then none
    else if containsSeq ("<html".data) h.data = false then none
    else parsePage h

/-- Shallow embedding of `scrape_single_page` (scraper/aliexpress_scraper.py,
lines 82-140).  It returns `none` when the attempt loop body never runs
(`retries ≤ 0`: Python falls through and returns `None`); otherwise the
outcome together with the number of calls made to the transport wrapper
`fetch_via_brightdata`. -/
def scrape_single_page (fetch : Nat → Option String)
    (parsePage : String → Option (List Record)) (retries : Int) :
    Option (FetchOutcome × Nat) :=
  if retries ≤ 0 then none
  else
    let r := retryLoop (pageAttempt fetch parsePage) 1 retries.toNat
    some (match r.1 with
      | some l => FetchOutcome.success l
      | none => FetchOutcome.failure, r.2)

/-- C3: one invocation of `scrape_single_page` calls the transport wrapper
at most `retries` times and returns success at the first attempt whose
document is accepted and parsed, with no further attempts; and one
invocation of the wrapper `fetch_via_brightdata` posts to the external HTTP
transport at most `maxRetries` times and likewise returns the first
non-empty well-formed document immediately. -/
theorem c3_fetch_retry_budget (fetch : Nat → Option String)
    (parsePage : String → Option (List Record)) (retries : Int)
    (post : Nat → PostResult) (maxRetries : Nat)
    (hr : 1 ≤ retries) (hm : 1 ≤ maxRetries) :
    (∀ o c, scrape_single_page fetch parsePage retries = some (o, c) →
      c ≤ retries.toNat) ∧
    (∀ k l, 1 ≤ k → k ≤ retries.toNat → pageAttempt fetch parsePage k = some l →
      (∀ b, 1 ≤ b → b < k → pageAttempt fetch parsePage b = none) →
      scrape_single_page fetch parsePage retries = some (FetchOutcome.success l, k)) ∧
    ((fetch_via_brightdata post maxRetries).2 ≤ maxRetries) ∧
    (∀ k h, 1 ≤ k → k ≤ maxRetries → postOk (post k) = some h →
      (∀ b, 1 ≤ b → b < k → postOk (post b) = none) →
      fetch_via_brightdata post maxRetries = (some h, k)) := by
  have hnp : ¬ retries ≤ 0 := by omega
  refine ⟨?_, ?_, ?_, ?_⟩
  · intro o c hoc
    rw [scrape_single_page, if_neg hnp] at hoc
    have hc : c = (retryLoop (pageAttempt fetch parsePage) 1 retries.toNat).2 :=
      (congrArg Prod.snd (Option.some_injective _ hoc)).symm
    rw [hc]
    exact retryLoop_count_le _ _ _
  · intro k l hk1 hk2 hatt hprev
    rw [scrape_single_page, if_neg hnp]
    rw [retryLoop_first_success (pageAttempt fetch parsePage) retries.toNat 1 hk1
      (by omega) hatt (fun b hb1 hb2 => hprev b hb1 hb2)]
    have : k - 1 + 1 = k := by omega
    rw [this]
  · exact retryLoop_count_le _ _ _
  · intro k h hk1 hk2 hatt hprev
    unfold fetch_via_brightdata
    rw [retryLoop_first_success (fun a => postOk (post a)) maxRetries 1 hk1
      (by omega) hatt (fun b hb1 hb2 => hprev b hb1 hb2)]
    have : k - 1 + 1 = k := by omega
    rw [this]

/-- Oracles for the C3 witness: the first attempt fails (no `"<html"`
marker; HTTP 503), the second succeeds. -/
def fetchW : Nat → Option String :=
  fun a => if a = 2 then some "<html>ok</html>" else some "nohtml"

def parseW : String → Option (List Record) :=
  fun _ => some [⟨some "u", "t"⟩]

def postW : Nat → PostResult :=
  fun a => if a = 2 then PostResult.resp 200 " <html>OK</html> "
           else PostResult.resp 503 "err"

/-- C3 witness: with success arriving on attempt 2 of 3, both loops stop
after exactly 2 transport calls and return that success. -/
theorem c3_fetch_retry_budget_witness :
    scrape_single_page fetchW parseW 3 =
      some (FetchOutcome.success [⟨some "u", "t"⟩], 2) ∧
    fetch_via_brightdata postW 3 = (some "<html>OK</html>", 2) := by
  constructor
  · exact (c3_fetch_retry_budget fetchW parseW 3 postW 3 (by norm_num)
      (by norm_num)).2.1 2 [⟨some "u", "t"⟩] (by norm_num) (by norm_num) (by decide)
      (fun b hb1 hb2 => by
        have hb : b = 1 := by omega
        subst hb
        decide)
  · exact (c3_fetch_retry_budget fetchW parseW 3 postW 3 (by norm_num)
      (by norm_num)).2.2.2 2 "<html>OK</html>" (by norm_num) (by norm_num) (by decide)
      (fun b hb1 hb2 => by
        have hb : b = 1 := by omega
        subst hb
        decide)

/-- C9: with non-positive `retries` the attempt loop body never runs and
`scrape_single_page` returns Python `None` instead of a list, so the
declared list-of-records contract holds only under `retries ≥ 1`. -/
theorem c9_nonpositive_retries (fetch : Nat → Option String)
    (parsePage : String → Option (List Record)) (retries : Int) :
    (retries ≤ 0 → scrape_single_page fetch parsePage retries = none) ∧
    (1 ≤ retries → ∃ o c, scrape_single_page fetch parsePage retries = some (o, c)) := by
  constructor
  · intro h
    rw [scrape_single_page, if_pos h]
  · intro h
    rw [scrape_single_page, if_neg (by omega)]
    exact ⟨_, _, rfl⟩

/-- C9 witness: at `retries = 0` the result is Python `None`; at
`retries = 1` a value (here: the failure outcome) is returned. -/
theorem c9_nonpositive_retries_witness :
    scrape_single_page fetchW parseW 0 = none ∧
    ∃ o c, scrape_single_page fetchW parseW 1 = some (o, c) :=
  ⟨(c9_nonpositive_retries fetchW parseW 0).1 (by norm_num),
   (c9_nonpositive_retries fetchW parseW 1).2 (by norm_num)⟩

/-! ### URL query handling: `with_page_param`

`with_page_param` (scraper/aliexpress_scraper.py, lines 18-25) composes
`urlparse`, `parse_qs`, a dict update, `urlencode` over the first values,
and `urlunparse`.  Queries are modelled as `List Char`; percent/plus
decoding is the identity in this model (it works over already-decoded query
text), which does not affect the parameter-multiplicity behaviour under
study. -/

/-- Python `str.split(sep)` for a one-character separator. -/
def splitOnChar (sep : Char) : List Char → List (List Char)
  | [] => [[]]
  | c :: cs =>
    match splitOnChar sep cs with
    | [] => [[]]
    | g :: gs => if c = sep then [] :: g :: gs else (c :: g) :: gs

/-- Python `sep.join(...)` for a one-character separator. -/
def joinSep (sep : Char) : List (List Char) → List Char
  | [] => []
  | [g] => g
  | g :: g2 :: gs => g ++ sep :: joinSep sep (g2 :: gs)

/-- Python `field.split('=', 1)` when the field contains an `'='`. -/
def splitEqOnce : List Char → Option (List Char × List Char)
  | [] => none
  | c :: cs =>
    if c = '=' then some ([], cs)
    else
      match splitEqOnce cs with
      | none => none
      | some p => some (c :: p.1, p.2)

/-- One field of `urllib.parse.parse_qsl` with `keep_blank_values=False`:
empty fields, fields without `'='`, and fields with an empty value are all
dropped. -/
def parseField (field : List Char) : Option (List Char × List Char) :=
  if field = [] then none
  else
    match splitEqOnce field with
    | none => none
    | some p => if p.2 = [] then none else some p

/-- Model of `urllib.parse.parse_qsl(query)`. -/
def parseQsl (q : List Char) : List (List Char × List Char) :=
  (splitOnChar '&' q).filterMap parseField

/-- Grouping step of `parse_qs`: append the value to the first entry with
this key, or append a fresh entry at the end (CPython dicts preserve
insertion order). -/
def addPair (acc : List (List Char × List (List Char))) (kv : List Char × List Char) :
    List (List Char × List (List Char)) :=
  match acc with
  | [] => [(kv.1, [kv.2])]
  | e :: rest => if e.1 = kv.1 then (e.1, e.2 ++ [kv.2]) :: rest else e :: addPair rest kv

/-- Model of `urllib.parse.parse_qs(query)`: values grouped per key, keys in
first-appearance order. -/
def parse_qs (q : List Char) : List (List Char × List (List Char)) :=
  (parseQsl q).foldl addPair []

/-- Python `qs["page"] = [str(page_num)]`: replace the value of the key in
place, or append the key at the end. -/
def setKey (acc : List (List Char × List (List Char))) (key : List Char)
    (vals : List (List Char)) : List (List Char × List (List Char)) :=
  match acc with
  | [] => [(key, vals)]
  | e :: rest => if e.1 = key then (key, vals) :: rest else e :: setKey rest key vals

/-- Model of `urlencode({k: v[0] for k, v in qs.items()})` with quoting as
the identity: `"&".join(k + "=" + v0)` over the first values. -/
def urlencodeFirst (qs : List (List Char × List (List Char))) : List Char :=
  joinSep '&' (qs.map (fun e => e.1 ++ '=' :: e.2.headD []))

/-- Decimal digit characters of a natural number (fuel-based division
loop). -/
def natStrGo : Nat → Nat → List Char
  | 0, _ => []
  | _+1, 0 => []
  | fuel+1, n+1 => natStrGo fuel ((n+1) / 10) ++ [Nat.digitChar ((n+1) % 10)]

/-- Model of Python `str` on a non-negative int. -/
def natStr (n : Nat) : List Char := if n = 0 then ['0'] else natStrGo (n+1) n

/-- Model of Python `str(page_num)` on an int: minimal decimal form with a
leading `'-'` for negatives. -/
def intStr : Int → List Char
  | Int.ofNat m => natStr m
  | Int.negSucc m => '-' :: natStr (m+1)

/-- A parsed URL as `urllib.parse.urlparse` yields it (six components);
`_replace(query=...)` and `urlunparse` act on this structure. -/
structure Url where
  scheme : String
  netloc : String
  path : String
  params : String
  query : List Char
  fragment : String
deriving DecidableEq

/-- Shallow embedding of `with_page_param` (scraper/aliexpress_scraper.py,
lines 18-25): parse the query, overwrite the `page` parameter, re-encode
keeping only the first value of each key. -/
def with_page_param (u : Url) (page_num : Int) : Url :=
  let qs := parse_qs u.query
  let qs2 := setKey qs ("page".data) [intStr page_num]
  { u with query := urlencodeFirst qs2 }

/-! ### Dedup: seeding from the sink, and admission -/

/-- One line of the NDJSON sink: `malformed` stands for a line on which
`json.loads` (or the subsequent attribute access) raises; `record u` for a
parsed object whose `product_url` field is `u` (`none` when absent). -/
inductive SinkLine
  | malformed
  | record (product_url : Option String)
deriving DecidableEq

/-- The `product_url` under which the seeding loop indexes a line: the line
must parse and `obj.get("product_url")` must be truthy (present,
non-empty). -/
def sinkUrl : SinkLine → Option String
  | SinkLine.malformed => none
  | SinkLine.record none => none
  | SinkLine.record (some u) => if u = "" then none else some u

/-- A line the dedup store counts: parsed, with a truthy `product_url`. -/
def isWellFormed (l : SinkLine) : Bool := (sinkUrl l).isSome

/-- Urls of the well-formed lines, in order, duplicates kept. -/
def wellFormedUrls (sink : List SinkLine) : List String := sink.filterMap sinkUrl

/-- Model of Python `set.add`: insertion-ordered duplicate-free list. -/
def insertUrl (s : List String) (u : String) : List String :=
  if u ∈ s then s else s ++ [u]

/-- Shallow embedding of the seeding loop of `scrape_pages`
(scraper/aliexpress_scraper.py, lines 153-164): build `seen_urls` from the
existing sink, skipping malformed lines. -/
def loadSeenUrls (sink : List SinkLine) : List String :=
  sink.foldl (fun s l =>
    match sinkUrl l with
    | none => s
    | some u => insertUrl s u) []

/-- The filter condition of the worker (line 177):
`item.get("product_url") and item["product_url"] not in seen_urls`. -/
def admitKeep (seen : List String) (it : Record) : Bool :=
  match it.product_url with
  | none => false
  | some u => if u = "" then false else if u ∈ seen then false else true

/-- The filter of the worker (lines 175-178): keep candidates whose
`product_url` is truthy and not yet in `seen_urls`.  The membership check
runs against `seen` as it was at the start of the call; the whole batch is
marked only afterwards (lines 180-181). -/
def admitNew (products : List Record) (seen : List String) : List Record :=
  products.filter (admitKeep seen)

/-- The marking loop of the worker (lines 180-181). -/
def markSeen (newItems : List Record) (seen : List String) : List String :=
  newItems.foldl (fun s it =>
    match it.product_url with
    | none => s
    | some u => insertUrl s u) seen

/-- A sequence of admit calls against a shared seen-set, performed one
after another (the check-and-mark block of a worker contains no suspension
point, so concurrent workers interleave only at call granularity).  Returns
the per-call admitted batches and the final seen-set. -/
def admitSeq (calls : List (List Record)) (seen : List String) :
    List (List Record) × List String :=
  match calls with
  | [] => ([], seen)
  | c :: cs =>
    let ni := admitNew c seen
    let seen2 := markSeen ni seen
    let r := admitSeq cs seen2
    (ni :: r.1, r.2)

/-- The truthy url of a record, if any. -/
def recUrl (r : Record) : Option String :=
  match r.product_url with
  | none => none
  | some u => if u = "" then none else some u

/-- The truthy urls of a list of records, in order, duplicates kept. -/
def recUrls (l : List Record) : List String := l.filterMap recUrl

lemma admitKeep_iff {seen : List String} {it : Record} :
    admitKeep seen it = true ↔ ∃ u, it.product_url = some u ∧ u ≠ "" ∧ u ∉ seen := by
  constructor
  · intro h
    cases hu : it.product_url with
    | none =>
      exfalso
      unfold admitKeep at h
      rw [hu] at h
      exact Bool.false_ne_true h
    | some u =>
      have h2 : (if u = "" then false else if u ∈ seen then false else true) = true := by
        unfold admitKeep at h
        rw [hu] at h
        exact h
      by_cases h3 : u = ""
      · rw [if_pos h3] at h2
        exact absurd h2 Bool.false_ne_true
      · rw [if_neg h3] at h2
        by_cases h4 : u ∈ seen
        · rw [if_pos h4] at h2
          exact absurd h2 Bool.false_ne_true
        · exact ⟨u, rfl, h3, h4⟩
  · rintro ⟨u, hu, h3, h4⟩
    unfold admitKeep
    rw [hu]
    show (if u = "" then false else if u ∈ seen then false else true) = true
    rw [if_neg h3, if_neg h4]

lemma recUrl_eq_some {r : Record} {u : String} :
    recUrl r = some u ↔ r.product_url = some u ∧ u ≠ "" := by
  constructor
  · intro h
    cases hu : r.product_url with
    | none =>
      exfalso
      unfold recUrl at h
      rw [hu] at h
      exact Option.noConfusion h
    | some v =>
      have h2 : (if v = "" then none else some v) = some u := by
        unfold recUrl at h
        rw [hu] at h
        exact h
      by_cases h3 : v = ""
      · rw [if_pos h3] at h2
        exact absurd h2 (Option.noConfusion ·)
      · rw [if_neg h3] at h2
        have hv : v = u := Option.some_injective _ h2
        subst hv
        exact ⟨rfl, h3⟩
  · rintro ⟨hu, h3⟩
    unfold recUrl
    rw [hu]
    show (if u = "" then none else some u) = some u
    rw [if_neg h3]

lemma mem_recUrls {l : List Record} {u : String} :
    u ∈ recUrls l ↔ ∃ r ∈ l, r.product_url = some u ∧ u ≠ "" := by
  unfold recUrls
  rw [List.mem_filterMap]
  constructor
  · rintro ⟨r, hr, hru⟩
    exact ⟨r, hr, recUrl_eq_some.mp hru⟩
  · rintro ⟨r, hr, hru, hne⟩
    exact ⟨r, hr, recUrl_eq_some.mpr ⟨hru, hne⟩⟩

lemma mem_admitNew {products : List Record} {seen : List String} {r : Record}
    (h : r ∈ admitNew products seen) :
    r ∈ products ∧ ∃ u, r.product_url = some u ∧ u ≠ "" ∧ u ∉ seen := by
  have hm := List.mem_filter.mp h
  exact ⟨hm.1, admitKeep_iff.mp hm.2⟩

lemma mem_insertUrl {s : List String} {u a : String} :
    a ∈ insertUrl s u ↔ a ∈ s ∨ a = u := by
  unfold insertUrl
  by_cases h : u ∈ s
  · rw [if_pos h]
    constructor
    · exact Or.inl
    · rintro (ha | rfl)
      · exact ha
      · exact h
  · rw [if_neg h]
    simp [List.mem_append]

lemma insertUrl_nodup {s : List String} {u : String} (h : s.Nodup) :
    (insertUrl s u).Nodup := by
  unfold insertUrl
  by_cases hm : u ∈ s
  · rwa [if_pos hm]
  · rw [if_neg hm]
    exact List.Nodup.append h (List.nodup_singleton u)
      (fun a ha hu => hm (by rwa [List.mem_singleton.mp hu] at ha))

lemma markSeen_cons (r : Record) (rest : List Record) (s : List String) :
    markSeen (r :: rest) s =
      markSeen rest (match r.product_url with
        | none => s
        | some u => insertUrl s u) := rfl

lemma mem_markSeen {l : List Record} {s : List String} {a : String} :
    a ∈ markSeen l s ↔ a ∈ s ∨ ∃ r ∈ l, r.product_url = some a := by
  induction l generalizing s with
  | nil =>
    constructor
    · exact Or.inl
    · rintro (h | ⟨r, hr, _⟩)
      · exact h
      · exact absurd hr (List.not_mem_nil r)
  | cons r rest ih =>
    rw [markSeen_cons]
    cases hu : r.product_url with
    | none =>
      rw [ih]
      constructor
      · rintro (h | ⟨q, hq, hqa⟩)
        · exact Or.inl h
        · exact Or.inr ⟨q, List.mem_cons_of_mem r hq, hqa⟩
      · rintro (h | ⟨q, hq, hqa⟩)
        · exact Or.inl h
        · rcases List.mem_cons.mp hq with rfl | hq2
          · rw [hu] at hqa
            exact absurd hqa (Option.noConfusion ·)
          · exact Or.inr ⟨q, hq2, hqa⟩
    | some u =>
      rw [ih]
      constructor
      · rintro (h | ⟨q, hq, hqa⟩)
        · rcases mem_insertUrl.mp h with h2 | rfl
          · exact Or.inl h2
          · exact Or.inr ⟨r, List.mem_cons_self r rest, hu⟩
        · exact Or.inr ⟨q, List.mem_cons_of_mem r hq, hqa⟩
      · rintro (h | ⟨q, hq, hqa⟩)
        · exact Or.inl (mem_insertUrl.mpr (Or.inl h))
        · rcases List.mem_cons.mp hq with rfl | hq2
          · rw [hu] at hqa
            have : u = a := Option.some_injective _ hqa
            exact Or.inl (mem_insertUrl.mpr (Or.inr this.symm))
          · exact Or.inr ⟨q, hq2, hqa⟩

lemma admitSeq_cons (c : List Record) (cs : List (List Record)) (seen : List String) :
    admitSeq (c :: cs) seen =
      ((admitNew c seen) :: (admitSeq cs (markSeen (admitNew c seen) seen)).1,
        (admitSeq cs (markSeen (admitNew c seen) seen)).2) := rfl

lemma recUrls_nodup_of_sublist {l1 l2 : List Record}
    (h : l1.Sublist l2) (h2 : (recUrls l2).Nodup) : (recUrls l1).Nodup :=
  ((h.filterMap recUrl).nodup h2)

lemma admitSeq_invariant (calls : List (List Record)) :
    ∀ seen, (∀ c ∈ calls, (recUrls c).Nodup) →
      (recUrls (admitSeq calls seen).1.flatten).Nodup ∧
      (∀ r ∈ (admitSeq calls seen).1.flatten, ∃ u, r.product_url = some u ∧ u ≠ "") ∧
      (∀ u ∈ recUrls (admitSeq calls seen).1.flatten, u ∉ seen) := by
  induction calls with
  | nil =>
    intro seen _
    refine ⟨List.nodup_nil, ?_, ?_⟩
    · intro r hr
      exact absurd hr (List.not_mem_nil r)
    · intro u hu
      exact absurd hu (List.not_mem_nil u)
  | cons c cs ih =>
    intro seen hc
    rw [admitSeq_cons]
    simp only [List.flatten_cons]
    set ni := admitNew c seen with hni
    set seen2 := markSeen ni seen with hseen2
    have hrest := ih seen2 (fun d hd => hc d (List.mem_cons_of_mem c hd))
    have hniMem : ∀ u ∈ recUrls ni, u ∉ seen ∧ u ∈ seen2 := by
      intro u hu
      obtain ⟨r, hr, hru, hne⟩ := mem_recUrls.mp hu
      obtain ⟨_, v, hv, _, hvs⟩ := mem_admitNew hr
      have huv : u = v := by
        rw [hru] at hv
        exact Option.some_injective _ hv
      subst huv
      exact ⟨hvs, mem_markSeen.mpr (Or.inr ⟨r, hr, hru⟩)⟩
    have hNodupNi : (recUrls ni).Nodup :=
      recUrls_nodup_of_sublist (List.filter_sublist c) (hc c (List.mem_cons_self c cs))
    rw [recUrls, List.filterMap_append]
    refine ⟨?_, ?_, ?_⟩
    · refine List.Nodup.append hNodupNi hrest.1 ?_
      intro u hu hu2
      exact (hrest.2.2 u hu2) (hniMem u hu).2
    · intro r hr
      rcases List.mem_append.mp hr with h1 | h1
      · obtain ⟨_, u, hu, hne, _⟩ := mem_admitNew h1
        exact ⟨u, hu, hne⟩
      · exact hrest.2.1 r h1
    · intro u hu
      rcases List.mem_append.mp hu with h1 | h1
      · exact (hniMem u h1).1
      · intro hus
        exact (hrest.2.2 u h1) (mem_markSeen.mpr (Or.inl hus))

/-- Records for concrete admission scenarios. -/
def rX : Record := ⟨some "X", "tx"⟩

def rY : Record := ⟨some "Y", "ty"⟩

/-- C2 counterexample: a single admit call whose candidate list repeats the
url "X" admits both copies (the membership check of the whole batch runs
before any marking), so the union of admitted records across the calls of a
run can carry a duplicate url. -/
theorem c2_admission_counterexample :
    (admitSeq [[rX, rX]] []).1.flatten = [rX, rX] ∧
    ¬ (recUrls (admitSeq [[rX, rX]] []).1.flatten).Nodup := by
  constructor
  · rfl
  · decide

/-- C2 (amended): across a sequence of admit calls with overlapping url
sets, provided each single call's candidate batch carries pairwise-distinct
truthy urls, the union of all admitted records has no duplicate url; and a
record with an empty or absent url is never admitted (unconditionally so). -/
theorem c2_admission_no_duplicates (calls : List (List Record)) (seen : List String)
    (hcall : ∀ c ∈ calls, (recUrls c).Nodup) :
    (recUrls (admitSeq calls seen).1.flatten).Nodup ∧
    (∀ r ∈ (admitSeq calls seen).1.flatten, ∃ u, r.product_url = some u ∧ u ≠ "") :=
  ⟨(admitSeq_invariant calls seen hcall).1, (admitSeq_invariant calls seen hcall).2.1⟩

/-- C2 witness: two overlapping admit calls (`[X]` then `[X, Y]`) against an
empty index admit `X` once and `Y` once. -/
theorem c2_admission_no_duplicates_witness :
    (recUrls (admitSeq [[rX], [rX, rY]] []).1.flatten).Nodup ∧
    (∀ r ∈ (admitSeq [[rX], [rX, rY]] []).1.flatten,
      ∃ u, r.product_url = some u ∧ u ≠ "") :=
  c2_admission_no_duplicates [[rX], [rX, rY]] [] (by decide)

lemma loadSeenUrls_eq_foldl (sink : List SinkLine) :
    loadSeenUrls sink = sink.foldl (fun s l =>
      match sinkUrl l with
      | none => s
      | some u => insertUrl s u) [] := rfl

lemma mem_loadAux (sink : List SinkLine) :
    ∀ s a, a ∈ sink.foldl (fun s l =>
        match sinkUrl l with
        | none => s
        | some u => insertUrl s u) s ↔ a ∈ s ∨ a ∈ wellFormedUrls sink := by
  induction sink with
  | nil =>
    intro s a
    simp [wellFormedUrls]
  | cons l rest ih =>
    intro s a
    rw [List.foldl_cons]
    cases hl : sinkUrl l with
    | none =>
      rw [ih]
      unfold wellFormedUrls
      rw [List.filterMap_cons, hl]
    | some u =>
      rw [ih]
      unfold wellFormedUrls
      rw [List.filterMap_cons, hl]
      rw [List.mem_cons]
      constructor
      · rintro (h1 | h1)
        · rcases mem_insertUrl.mp h1 with h2 | rfl
          · exact Or.inl h2
          · exact Or.inr (Or.inl rfl)
        · exact Or.inr (Or.inr h1)
      · rintro (h1 | h1 | h1)
        · exact Or.inl (mem_insertUrl.mpr (Or.inl h1))
        · exact Or.inl (mem_insertUrl.mpr (Or.inr h1))
        · exact Or.inr h1

lemma nodup_loadAux (sink : List SinkLine) :
    ∀ s, s.Nodup → (sink.foldl (fun s l =>
        match sinkUrl l with
        | none => s
        | some u => insertUrl s u) s).Nodup := by
  induction sink with
  | nil => intro s h; exact h
  | cons l rest ih =>
    intro s h
    rw [List.foldl_cons]
    cases hl : sinkUrl l with
    | none => exact ih s h
    | some u => exact ih (insertUrl s u) (insertUrl_nodup h)

lemma loadAux_skips_malformed (sink : List SinkLine) :
    ∀ s, (sink.filter isWellFormed).foldl (fun s l =>
        match sinkUrl l with
        | none => s
        | some u => insertUrl s u) s =
      sink.foldl (fun s l =>
        match sinkUrl l with
        | none => s
        | some u => insertUrl s u) s := by
  induction sink with
  | nil => intro s; rfl
  | cons l rest ih =>
    intro s
    rw [List.filter_cons]
    cases hl : sinkUrl l with
    | none =>
      have hwf : isWellFormed l = false := by
        unfold isWellFormed
        rw [hl]
        rfl
      rw [hwf]
      simp only [Bool.false_eq_true, if_false, List.foldl_cons, hl]
      exact ih s
    | some u =>
      have hwf : isWellFormed l = true := by
        unfold isWellFormed
        rw [hl]
        rfl
      rw [hwf]
      simp only [if_true, List.foldl_cons, hl]
      exact ih (insertUrl s u)

lemma loadSeenUrls_skips_malformed (sink : List SinkLine) :
    loadSeenUrls sink = loadSeenUrls (sink.filter isWellFormed) := by
  rw [loadSeenUrls_eq_foldl, loadSeenUrls_eq_foldl]
  exact (loadAux_skips_malformed sink []).symm

lemma wellFormedUrls_length (sink : List SinkLine) :
    (wellFormedUrls sink).length = sink.countP isWellFormed := by
  induction sink with
  | nil => rfl
  | cons l rest ih =>
    unfold wellFormedUrls at *
    rw [List.filterMap_cons, List.countP_cons]
    cases hl : sinkUrl l with
    | none =>
      have hwf : isWellFormed l = false := by
        unfold isWellFormed
        rw [hl]
        rfl
      rw [hwf]
      simp [ih]
    | some u =>
      have hwf : isWellFormed l = true := by
        unfold isWellFormed
        rw [hl]
        rfl
      rw [hwf]
      simp [ih]

/-- C4 (amended): seeding the dedup index from the sink skips every
malformed line without failing; the index is duplicate-free and holds
exactly the distinct truthy urls of the well-formed lines — hence exactly
`N` entries for `N` well-formed lines whenever their urls are pairwise
distinct — and a subsequent admit of a record whose url matches an index
entry never admits that record. -/
theorem c4_load_dedup_index (sink : List SinkLine) :
    (loadSeenUrls sink = loadSeenUrls (sink.filter isWellFormed)) ∧
    (loadSeenUrls sink).Nodup ∧
    (∀ u, u ∈ loadSeenUrls sink ↔ u ∈ wellFormedUrls sink) ∧
    ((wellFormedUrls sink).Nodup →
      (loadSeenUrls sink).length = sink.countP isWellFormed) ∧
    (∀ c r u, r.product_url = some u → u ∈ loadSeenUrls sink →
      r ∉ admitNew c (loadSeenUrls sink)) := by
  have hmem : ∀ u, u ∈ loadSeenUrls sink ↔ u ∈ wellFormedUrls sink := by
    intro u
    rw [loadSeenUrls_eq_foldl, mem_loadAux]
    simp
  have hnd : (loadSeenUrls sink).Nodup := by
    rw [loadSeenUrls_eq_foldl]
    exact nodup_loadAux sink [] List.nodup_nil
  refine ⟨loadSeenUrls_skips_malformed sink, hnd, hmem, ?_, ?_⟩
  · intro hwf
    rw [← wellFormedUrls_length]
    exact List.Perm.length_eq ((List.perm_ext_iff_of_nodup hnd hwf).mpr hmem)
  · intro c r u hru hu hmem2
    obtain ⟨_, v, hv, _, hvs⟩ := mem_admitNew hmem2
    rw [hru] at hv
    have huv : u = v := Option.some_injective _ hv
    subst huv
    exact hvs hu

/-- C4 counterexample: a sink of two well-formed lines carrying the same
url and no malformed line seeds an index of 1 entry, not 2. -/
def sinkDup : List SinkLine := [SinkLine.record (some "a"), SinkLine.record (some "a")]

theorem c4_load_dedup_index_counterexample :
    sinkDup.countP isWellFormed = 2 ∧
    sinkDup.countP (fun l => decide (l = SinkLine.malformed)) = 0 ∧
    (loadSeenUrls sinkDup).length = 1 := by decide

/-- Sink for the C4 witness: two well-formed lines with distinct urls, one
malformed line, one parsed line without a url. -/
def sinkW : List SinkLine :=
  [SinkLine.record (some "a"), SinkLine.malformed, SinkLine.record none,
   SinkLine.record (some "b")]

/-- C4 witness: with the urls pairwise distinct, the index size equals the
number of well-formed lines. -/
theorem c4_load_dedup_index_witness :
    (loadSeenUrls sinkW).length = sinkW.countP isWellFormed :=
  (c4_load_dedup_index sinkW).2.2.2.1 (by decide)

/-! ### The orchestrator: `scrape_pages` (lines 143-203) -/

/-- The environment of one run: start url, transport oracle (what
`fetch_via_brightdata` returns for a page url and attempt number), parse
oracle, per-page retry limit, pre-existing sink contents, page count. -/
structure RunEnv where
  start_url : Url
  fetchHTML : Url → Nat → Option String
  parsePage : String → Option (List Record)
  retries : Int
  initSink : List SinkLine
  pages : Nat

/-- The transport oracle the worker for page `p` sees (line 170: the page
url is `with_page_param(start_url, page_num)`). -/
def pageFetch (env : RunEnv) (p : Nat) : Nat → Option String :=
  env.fetchHTML (with_page_param env.start_url (Int.ofNat p))

/-- The fetch phase of the worker for page `p` (line 173). -/
def pageResult (env : RunEnv) (p : Nat) : Option (FetchOutcome × Nat) :=
  scrape_single_page (pageFetch env p) env.parsePage env.retries

/-- Shallow embedding of the worker closure (lines 169-189): fetch, filter
the candidates against `seen_urls`, mark the admitted batch, append it to
the sink, return its size.  `none` models the worker raising, which
happens exactly when `scrape_single_page` returns `None`. -/
def worker (env : RunEnv) (p : Nat) (seen : List String) :
    Option (List Record × List String) :=
  (pageResult env p).map (fun r =>
    let products := match r.1 with
      | FetchOutcome.success l => l
      | FetchOutcome.failure => []
    let ni := admitNew products seen
    (ni, markSeen ni seen))

/-- Linearized run of the workers over the given page numbers: per-page
admitted batches plus the final seen-set; `none` when a worker raises. -/
def runWorkers (env : RunEnv) : List Nat → List String →
    Option (List (List Record) × List String)
  | [], seen => some ([], seen)
  | p :: ps, seen =>
    match worker env p seen with
    | none => none
    | some r =>
      match runWorkers env ps r.2 with
      | none => none
      | some rr => some (r.1 :: rr.1, rr.2)

/-- The run body of `scrape_pages`: workers for pages `1..pages` after
seeding `seen_urls` from the sink (lines 150-197). -/
def runPages (env : RunEnv) : Option (List (List Record) × List String) :=
  runWorkers env (List.range' 1 env.pages) (loadSeenUrls env.initSink)

/-- The per-page counts the workers return, `len(new_items)` each
(line 189). -/
def pageNewCounts (env : RunEnv) : Option (List Nat) :=
  (runPages env).map (fun r => r.1.map List.length)

/-- The records appended to the sink during the run, in commit order
(lines 183-186). -/
def committedRecords (env : RunEnv) : Option (List Record) :=
  (runPages env).map (fun r => r.1.flatten)

/-- The return value of `scrape_pages`:
`total_new = sum(r for r in results if isinstance(r, int))` (lines 199 and
203; every worker returns an int, so the filter keeps everything). -/
def scrape_pages (env : RunEnv) : Option Nat :=
  (pageNewCounts env).map List.sum

/-- Whether the fetch phase of page `p` ends in a non-failure outcome. -/
def pageSucceeded (env : RunEnv) (p : Nat) : Bool :=
  match pageResult env p with
  | some (FetchOutcome.success _, _) => true
  | _ => false

/-- The number of pages of the run with a non-failure outcome. -/
def succeededPages (env : RunEnv) : Nat :=
  ((List.range' 1 env.pages).filter (pageSucceeded env)).length

lemma worker_eq_some (env : RunEnv) (hr : 1 ≤ env.retries) (p : Nat) (seen : List String) :
    ∃ ni seen2, worker env p seen = some (ni, seen2) := by
  unfold worker pageResult scrape_single_page
  rw [if_neg (by omega)]
  exact ⟨_, _, rfl⟩

lemma worker_failure (env : RunEnv) (hr : 1 ≤ env.retries) (p : Nat) (seen : List String)
    (hfail : ∀ a, 1 ≤ a → a ≤ env.retries.toNat →
      pageAttempt (pageFetch env p) env.parsePage a = none) :
    worker env p seen = some ([], seen) := by
  unfold worker pageResult scrape_single_page
  rw [if_neg (by omega)]
  rw [retryLoop_all_fail (pageAttempt (pageFetch env p) env.parsePage) env.retries.toNat 1
    (fun b hb1 hb2 => hfail b hb1 (by omega))]
  rfl

lemma runWorkers_spec (env : RunEnv) (hr : 1 ≤ env.retries) :
    ∀ ps seen, ∃ batches seen2, runWorkers env ps seen = some (batches, seen2) ∧
      batches.length = ps.length ∧
      (∀ i p, ps.get? i = some p →
        (∀ a, 1 ≤ a → a ≤ env.retries.toNat →
          pageAttempt (pageFetch env p) env.parsePage a = none) →
        batches.get? i = some []) := by
  intro ps
  induction ps with
  | nil =>
    intro seen
    exact ⟨[], seen, rfl, rfl, fun i p hip => by simp at hip⟩
  | cons p rest ih =>
    intro seen
    obtain ⟨ni, seen2, hw⟩ := worker_eq_some env hr p seen
    obtain ⟨batches, seen3, hrw, hlen, hfails⟩ := ih seen2
    refine ⟨ni :: batches, seen3, ?_, by simp [hlen], ?_⟩
    · simp only [runWorkers, hw, hrw]
    · intro i q hiq hfail
      match i, hiq with
      | 0, hiq =>
        have hq : q = p := by
          simp at hiq
          exact hiq.symm
        subst hq
        have hwf := worker_failure env hr q seen hfail
        rw [hwf] at hw
        have : ni = [] := congrArg (fun o => (Prod.fst o)) (Option.some_injective _ hw.symm)
        rw [this]
        rfl
      | Nat.succ j, hiq =>
        exact hfails j q hiq hfail

/-- C1 (amended): `scrape_pages` returns a single aggregate — the count of
newly committed records, equal to the sum of the per-page admitted counts
and to the number of records appended to the sink — and produces it only
after every scheduled page pipeline has run (one admitted batch per page). -/
theorem c1_run_total (env : RunEnv) (hr : 1 ≤ env.retries) :
    ∃ batches seen2, runPages env = some (batches, seen2) ∧
      batches.length = env.pages ∧
      pageNewCounts env = some (batches.map List.length) ∧
      scrape_pages env = some ((batches.map List.length).sum) ∧
      committedRecords env = some batches.flatten ∧
      batches.flatten.length = (batches.map List.length).sum := by
  obtain ⟨batches, seen2, hrw, hlen, _⟩ :=
    runWorkers_spec env hr (List.range' 1 env.pages) (loadSeenUrls env.initSink)
  have hrp : runPages env = some (batches, seen2) := hrw
  refine ⟨batches, seen2, hrp, ?_, ?_, ?_, ?_, ?_⟩
  · rw [hlen, List.length_range']
  · unfold pageNewCounts
    rw [hrp]
    rfl
  · unfold scrape_pages pageNewCounts
    rw [hrp]
    rfl
  · unfold committedRecords
    rw [hrp]
    rfl
  · exact List.length_flatten batches

/-- Base url for concrete runs. -/
def urlW : Url := ⟨"https", "example.com", "/w", "", "page=9".data, ""⟩

/-- A run whose only page always fails at transport level. -/
def envA : RunEnv := ⟨urlW, fun _ _ => none, fun _ => some [], 1, [], 1⟩

/-- A run whose only page fetches a well-formed document that parses to
zero products. -/
def envB : RunEnv := ⟨urlW, fun _ _ => some "<html>ok</html>", fun _ => some [], 1, [], 1⟩

/-- C1 counterexample: two runs with the same `scrape_pages` return value
but different numbers of succeeded pages.  The single integer `total_new`
that `scrape_pages` returns therefore cannot contain the pages-succeeded
count (nor the pages-attempted count) claimed for the run summary. -/
theorem c1_run_total_counterexample :
    scrape_pages envA = some 0 ∧ scrape_pages envB = some 0 ∧
    succeededPages envA = 0 ∧ succeededPages envB = 1 ∧
    scrape_pages envA = scrape_pages envB ∧
    succeededPages envA ≠ succeededPages envB := by decide

/-- C1 witness: the amended statement at the concrete one-page run `envB`. -/
theorem c1_run_total_witness :
    ∃ batches seen2, runPages envB = some (batches, seen2) ∧
      batches.length = envB.pages ∧
      pageNewCounts envB = some (batches.map List.length) ∧
      scrape_pages envB = some ((batches.map List.length).sum) ∧
      committedRecords envB = some batches.flatten ∧
      batches.flatten.length = (batches.map List.length).sum :=
  c1_run_total envB (by decide)

/-- C6: a page whose fetch fails every attempt contributes an empty batch
(zero records); the run still processes all `pages` pipelines and reports
its total; and when every page fails the reported total is zero. -/
theorem c6_page_failure_contained (env : RunEnv) (p : Nat) (hr : 1 ≤ env.retries)
    (hp : p ∈ List.range' 1 env.pages)
    (hfail : ∀ a, 1 ≤ a → a ≤ env.retries.toNat →
      pageAttempt (pageFetch env p) env.parsePage a = none) :
    ∃ batches seen2, runPages env = some (batches, seen2) ∧
      batches.length = env.pages ∧
      batches.get? (p - 1) = some [] ∧
      scrape_pages env = some ((batches.map List.length).sum) ∧
      ((∀ q, q ∈ List.range' 1 env.pages →
          ∀ a, 1 ≤ a → a ≤ env.retries.toNat →
            pageAttempt (pageFetch env q) env.parsePage a = none) →
        scrape_pages env = some 0) := by
  obtain ⟨batches, seen2, hrw, hlen, hfails⟩ :=
    runWorkers_spec env hr (List.range' 1 env.pages) (loadSeenUrls env.initSink)
  have hrp : runPages env = some (batches, seen2) := hrw
  have hpb : 1 ≤ p ∧ p < 1 + env.pages := by
    have := List.mem_range'_1.mp hp
    omega
  have hplt : p - 1 < env.pages := by omega
  have hidx : (List.range' 1 env.pages).get? (p - 1) = some p := by
    rw [List.get?_eq_getElem?, List.getElem?_range' 1 1 hplt]
    have heq : 1 + 1 * (p - 1) = p := by omega
    rw [heq]
  have hlenp : batches.length = env.pages := by
    rw [hlen, List.length_range']
  refine ⟨batches, seen2, hrp, hlenp, hfails (p - 1) p hidx hfail, ?_, ?_⟩
  · unfold scrape_pages pageNewCounts
    rw [hrp]
    rfl
  · intro hall
    have hzero : ∀ x ∈ batches.map List.length, x = 0 := by
      intro x hx
      obtain ⟨b, hb, hbx⟩ := List.mem_map.mp hx
      obtain ⟨i, hib⟩ := List.mem_iff_get?.mp hb
      have hi : i < env.pages := by
        obtain ⟨h3, _⟩ := List.get?_eq_some.mp hib
        omega
      have hiq : (List.range' 1 env.pages).get? i = some (1 + i) := by
        rw [List.get?_eq_getElem?, List.getElem?_range' 1 1 hi]
        have h4 : 1 + 1 * i = 1 + i := by omega
        rw [h4]
      have hqmem : (1 + i) ∈ List.range' 1 env.pages :=
        List.mem_range'_1.mpr ⟨by omega, by omega⟩
      have hbe : batches.get? i = some [] :=
        hfails i (1 + i) hiq (hall (1 + i) hqmem)
      rw [hib] at hbe
      have hbemp : b = [] := Option.some_injective _ hbe
      rw [← hbx, hbemp]
      rfl
    unfold scrape_pages pageNewCounts
    rw [hrp]
    have : (batches.map List.length).sum = 0 := List.sum_eq_zero hzero
    simp [this]

/-- Environment for the C6 witness: two pages; the transport succeeds only
for the page-2 url, so page 1 fails all its attempts. -/
def envC6 : RunEnv :=
  ⟨urlW,
   fun u _ => if u.query = ("page=2".data) then some "<html>ok</html>" else none,
   fun _ => some [⟨some "http://e/1.html", "t"⟩],
   2, [], 2⟩

/-- C6 witness: in the two-page run where page 1 always fails, the run
still yields one batch per page, with an empty batch for page 1. -/
theorem c6_page_failure_contained_witness :
    ∃ batches seen2, runPages envC6 = some (batches, seen2) ∧
      batches.length = envC6.pages ∧
      batches.get? (1 - 1) = some [] ∧
      scrape_pages envC6 = some ((batches.map List.length).sum) ∧
      ((∀ q, q ∈ List.range' 1 envC6.pages →
          ∀ a, 1 ≤ a → a ≤ envC6.retries.toNat →
            pageAttempt (pageFetch envC6 q) envC6.parsePage a = none) →
        scrape_pages envC6 = some 0) :=
  c6_page_failure_contained envC6 1 (by decide) (by decide)
    (fun a h1 h2 => rfl)

/-! ### Query string lemmas for `with_page_param` -/

lemma splitOnChar_cons (sep c : Char) (cs : List Char) :
    splitOnChar sep (c :: cs) =
      match splitOnChar sep cs with
      | [] => [[]]
      | g :: gs => if c = sep then [] :: g :: gs else (c :: g) :: gs := rfl

lemma splitOnChar_ne_nil (sep : Char) (cs : List Char) : splitOnChar sep cs ≠ [] := by
  induction cs with
  | nil => simp [splitOnChar]
  | cons c cs ih =>
    rw [splitOnChar_cons]
    cases h : splitOnChar sep cs with
    | nil => simp
    | cons g gs =>
      by_cases hc : c = sep
      · simp [hc]
      · simp [hc]

lemma splitOnChar_no_sep (sep : Char) (cs : List Char) :
    ∀ g ∈ splitOnChar sep cs, sep ∉ g := by
  induction cs with
  | nil =>
    intro g hg
    simp [splitOnChar] at hg
    subst hg
    simp
  | cons c cs ih =>
    intro g hg
    rw [splitOnChar_cons] at hg
    cases h : splitOnChar sep cs with
    | nil => exact absurd h (splitOnChar_ne_nil sep cs)
    | cons g0 gs =>
      rw [h] at hg
      have hg1 : g ∈ (if c = sep then [] :: g0 :: gs else (c :: g0) :: gs) := hg
      by_cases hc : c = sep
      · rw [if_pos hc] at hg1
        rcases List.mem_cons.mp hg1 with rfl | hg2
        · simp
        · exact ih g (by rw [h]; exact hg2)
      · rw [if_neg hc] at hg1
        rcases List.mem_cons.mp hg1 with rfl | hg2
        · intro hmem
          rcases List.mem_cons.mp hmem with hceq | hmem2
          · exact hc hceq.symm
          · exact ih g0 (by rw [h]; exact List.mem_cons_self g0 gs) hmem2
        · exact ih g (by rw [h]; exact List.mem_cons_of_mem g0 hg2)

lemma splitOnChar_of_no_sep {sep : Char} {cs : List Char} (h : sep ∉ cs) :
    splitOnChar sep cs = [cs] := by
  induction cs with
  | nil => rfl
  | cons c cs ih =>
    have hc : ¬ c = sep := fun hcc => h (by rw [hcc]; exact List.mem_cons_self _ _)
    have hcs : sep ∉ cs := fun hmem => h (List.mem_cons_of_mem c hmem)
    rw [splitOnChar_cons, ih hcs]
    simp [hc]

lemma splitOnChar_append {sep : Char} {a : List Char} (b : List Char) (ha : sep ∉ a) :
    splitOnChar sep (a ++ sep :: b) = a :: splitOnChar sep b := by
  induction a with
  | nil =>
    rw [List.nil_append, splitOnChar_cons]
    cases h : splitOnChar sep b with
    | nil => exact absurd h (splitOnChar_ne_nil sep b)
    | cons g gs => simp
  | cons c a ih =>
    have hc : ¬ c = sep := fun hcc => ha (by rw [hcc]; exact List.mem_cons_self _ _)
    have ha2 : sep ∉ a := fun hmem => ha (List.mem_cons_of_mem c hmem)
    rw [List.cons_append, splitOnChar_cons, ih ha2]
    simp [hc]

lemma splitOnChar_joinSep {sep : Char} :
    ∀ fields : List (List Char), fields ≠ [] → (∀ g ∈ fields, sep ∉ g) →
      splitOnChar sep (joinSep sep fields) = fields
  | [], h, _ => absurd rfl h
  | [g], _, h => by
    show splitOnChar sep g = [g]
    exact splitOnChar_of_no_sep (h g (List.mem_cons_self g []))
  | g :: g2 :: gs, _, h => by
    show splitOnChar sep (g ++ sep :: joinSep sep (g2 :: gs)) = g :: g2 :: gs
    rw [splitOnChar_append _ (h g (List.mem_cons_self _ _))]
    rw [splitOnChar_joinSep (g2 :: gs) (by simp)
      (fun x hx => h x (List.mem_cons_of_mem g hx))]

lemma splitEqOnce_cons (c : Char) (cs : List Char) :
    splitEqOnce (c :: cs) =
      if c = '=' then some ([], cs)
      else match splitEqOnce cs with
        | none => none
        | some p => some (c :: p.1, p.2) := rfl

lemma splitEqOnce_eq_some {f : List Char} :
    ∀ {n v : List Char}, splitEqOnce f = some (n, v) →
      f = n ++ '=' :: v ∧ '=' ∉ n := by
  induction f with
  | nil => intro n v h; exact absurd h (Option.noConfusion ·)
  | cons c cs ih =>
    intro n v h
    rw [splitEqOnce_cons] at h
    by_cases hc : c = '='
    · rw [if_pos hc] at h
      have h2 := Option.some_injective _ h
      have hn : n = [] := (congrArg Prod.fst h2).symm
      have hv : v = cs := (congrArg Prod.snd h2).symm
      subst hn
      subst hv
      subst hc
      exact ⟨rfl, by simp⟩
    · rw [if_neg hc] at h
      cases hrec : splitEqOnce cs with
      | none =>
        rw [hrec] at h
        exact absurd h (Option.noConfusion ·)
      | some p =>
        rw [hrec] at h
        have h2 := Option.some_injective _ h
        have hn : n = c :: p.1 := (congrArg Prod.fst h2).symm
        have hv : v = p.2 := (congrArg Prod.snd h2).symm
        subst hn
        subst hv
        obtain ⟨hf, hnp⟩ := ih hrec
        constructor
        · rw [List.cons_append, ← hf]
        · intro hmem
          rcases List.mem_cons.mp hmem with hceq | hmem2
          · exact hc hceq.symm
          · exact hnp hmem2

lemma splitEqOnce_append {n : List Char} (v : List Char) (hn : '=' ∉ n) :
    splitEqOnce (n ++ '=' :: v) = some (n, v) := by
  induction n with
  | nil =>
    rw [List.nil_append, splitEqOnce_cons, if_pos rfl]
  | cons c cs ih =>
    have hc : ¬ c = '=' := fun hcc => hn (by rw [hcc]; exact List.mem_cons_self _ _)
    have hcs : '=' ∉ cs := fun hmem => hn (List.mem_cons_of_mem c hmem)
    rw [List.cons_append, splitEqOnce_cons, if_neg hc, ih hcs]

lemma parseField_eq_some {g : List Char} {kv : List Char × List Char}
    (h : parseField g = some kv) :
    g = kv.1 ++ '=' :: kv.2 ∧ '=' ∉ kv.1 ∧ kv.2 ≠ [] := by
  unfold parseField at h
  by_cases hg : g = []
  · rw [if_pos hg] at h
    exact absurd h (Option.noConfusion ·)
  · rw [if_neg hg] at h
    cases hse : splitEqOnce g with
    | none =>
      rw [hse] at h
      exact absurd h (Option.noConfusion ·)
    | some p =>
      rw [hse] at h
      have h2 : (if p.2 = [] then none else some p) = some kv := h
      by_cases hv : p.2 = []
      · rw [if_pos hv] at h2
        exact absurd h2 (Option.noConfusion ·)
      · rw [if_neg hv] at h2
        have hp : p = kv := Option.some_injective _ h2
        subst hp
        obtain ⟨h1, h3⟩ := splitEqOnce_eq_some hse
        exact ⟨h1, h3, hv⟩

lemma parseField_encode {k v : List Char} (hk : '=' ∉ k) (hv : v ≠ []) :
    parseField (k ++ '=' :: v) = some (k, v) := by
  unfold parseField
  have hne : ¬ k ++ '=' :: v = [] := by
    intro hcontra
    have hlen := congrArg List.length hcontra
    simp at hlen
  rw [if_neg hne, splitEqOnce_append v hk]
  show (if v = [] then none else some (k, v)) = some (k, v)
  rw [if_neg hv]

lemma filterMap_eq_self {α : Type} {g : α → Option α} :
    ∀ {l : List α}, (∀ x ∈ l, g x = some x) → l.filterMap g = l := by
  intro l
  induction l with
  | nil => intro h; rfl
  | cons x xs ih =>
    intro h
    rw [List.filterMap_cons, h x (List.mem_cons_self x xs),
      ih (fun y hy => h y (List.mem_cons_of_mem x hy))]

/-- Encoding of a list of key-value pairs, as `urlencode` produces it. -/
def encodeQ (pairs : List (List Char × List Char)) : List Char :=
  joinSep '&' (pairs.map (fun kv => kv.1 ++ '=' :: kv.2))

lemma urlencodeFirst_eq (qs : List (List Char × List (List Char))) :
    urlencodeFirst qs = encodeQ (qs.map (fun e => (e.1, e.2.headD []))) := by
  unfold urlencodeFirst encodeQ
  rw [List.map_map]
  rfl

lemma parseQsl_encodeQ {pairs : List (List Char × List Char)}
    (h : ∀ kv ∈ pairs, '&' ∉ kv.1 ∧ '&' ∉ kv.2 ∧ '=' ∉ kv.1 ∧ kv.2 ≠ []) :
    parseQsl (encodeQ pairs) = pairs := by
  cases hp : pairs with
  | nil => rfl
  | cons kv rest =>
    subst hp
    unfold parseQsl encodeQ
    rw [splitOnChar_joinSep _ (by simp) ?no_amp]
    case no_amp =>
      intro g hg
      obtain ⟨e, he, hge⟩ := List.mem_map.mp hg
      obtain ⟨h1, h2, _, _⟩ := h e he
      rw [← hge]
      intro hmem
      rcases List.mem_append.mp hmem with hm | hm
      · exact h1 hm
      · rcases List.mem_cons.mp hm with hceq | hm2
        · exact absurd hceq (by decide)
        · exact h2 hm2
    · rw [List.filterMap_map]
      exact filterMap_eq_self (fun e he => by
        obtain ⟨_, _, h3, h4⟩ := h e he
        exact parseField_encode h3 h4)

lemma parseQsl_props {q : List Char} :
    ∀ kv ∈ parseQsl q, '&' ∉ kv.1 ∧ '&' ∉ kv.2 ∧ '=' ∉ kv.1 ∧ kv.2 ≠ [] := by
  intro kv hkv
  obtain ⟨g, hg, hpf⟩ := List.mem_filterMap.mp hkv
  obtain ⟨hge, hne, hvne⟩ := parseField_eq_some hpf
  have hamp : '&' ∉ g := splitOnChar_no_sep '&' q g hg
  rw [hge] at hamp
  refine ⟨?_, ?_, hne, hvne⟩
  · intro hm
    exact hamp (List.mem_append.mpr (Or.inl hm))
  · intro hm
    exact hamp (List.mem_append.mpr (Or.inr (List.mem_cons_of_mem '=' hm)))

/-- First-match lookup in an association list keyed by char-lists: the
parameter view of a query string. -/
def lookupQ {α : Type} (k : List Char) : List (List Char × α) → Option α
  | [] => none
  | e :: rest => if e.1 = k then some e.2 else lookupQ k rest

/-- The keys of an association list, in order. -/
def keysQ {α : Type} (l : List (List Char × α)) : List (List Char) := l.map Prod.fst

/-- The values attached to key `k` among the pairs, in order. -/
def valuesOf (k : List Char) (pairs : List (List Char × List Char)) : List (List Char) :=
  (pairs.filter (fun kv => decide (kv.1 = k))).map Prod.snd

lemma lookupQ_cons {α : Type} (k : List Char) (e : List Char × α) (rest : List (List Char × α)) :
    lookupQ k (e :: rest) = if e.1 = k then some e.2 else lookupQ k rest := rfl

lemma keysQ_cons {α : Type} (e : List Char × α) (l : List (List Char × α)) :
    keysQ (e :: l) = e.1 :: keysQ l := rfl

lemma valuesOf_cons (k : List Char) (e : List Char × List Char) (rest : List (List Char × List Char)) :
    valuesOf k (e :: rest) = if e.1 = k then e.2 :: valuesOf k rest else valuesOf k rest := by
  unfold valuesOf
  rw [List.filter_cons]
  by_cases he : e.1 = k
  · simp [he]
  · simp [he]

lemma lookupQ_eq_head_valuesOf (k : List Char) (pairs : List (List Char × List Char)) :
    lookupQ k pairs = (valuesOf k pairs).head? := by
  induction pairs with
  | nil => rfl
  | cons e rest ih =>
    rw [lookupQ_cons, valuesOf_cons]
    by_cases he : e.1 = k
    · rw [if_pos he, if_pos he]
      rfl
    · rw [if_neg he, if_neg he, ih]

lemma addPair_cons (e : List Char × List (List Char)) (rest : List (List Char × List (List Char)))
    (kv : List Char × List Char) :
    addPair (e :: rest) kv =
      if e.1 = kv.1 then (e.1, e.2 ++ [kv.2]) :: rest else e :: addPair rest kv := rfl

lemma addPair_lookup (kv : List Char × List Char) (k : List Char) :
    ∀ acc, lookupQ k (addPair acc kv) =
      if k = kv.1 then
        match lookupQ k acc with
        | none => some [kv.2]
        | some vs => some (vs ++ [kv.2])
      else lookupQ k acc := by
  intro acc
  induction acc with
  | nil =>
    show lookupQ k [(kv.1, [kv.2])] = _
    rw [lookupQ_cons]
    by_cases hk : k = kv.1
    · rw [if_pos (show (kv.1, [kv.2]).1 = k from hk.symm), if_pos hk]
      rfl
    · rw [if_neg (show ¬ (kv.1, [kv.2]).1 = k from fun h => hk h.symm), if_neg hk]
  | cons e rest ih =>
    rw [addPair_cons]
    by_cases he : e.1 = kv.1
    · rw [if_pos he]
      by_cases hk : k = kv.1
      · have hek : e.1 = k := by rw [he, hk]
        rw [if_pos hk, lookupQ_cons, if_pos hek, lookupQ_cons, if_pos hek]
      · have hek : ¬ e.1 = k := fun h => hk (by rw [← h, he])
        rw [if_neg hk, lookupQ_cons, if_neg hek, lookupQ_cons, if_neg hek]
    · rw [if_neg he]
      by_cases hk : k = kv.1
      · have hek : ¬ e.1 = k := fun h => he (by rw [h, hk])
        rw [if_pos hk, lookupQ_cons, if_neg hek, ih, if_pos hk, lookupQ_cons, if_neg hek]
      · rw [if_neg hk, lookupQ_cons, lookupQ_cons, ih, if_neg hk]

lemma foldl_addPair_lookup (k : List Char) (pairs : List (List Char × List Char)) :
    ∀ acc, lookupQ k (pairs.foldl addPair acc) =
      match lookupQ k acc with
      | some vs => some (vs ++ valuesOf k pairs)
      | none => if valuesOf k pairs = [] then none else some (valuesOf k pairs) := by
  induction pairs with
  | nil =>
    intro acc
    show lookupQ k acc = _
    cases h : lookupQ k acc with
    | none => simp [valuesOf]
    | some vs => simp [valuesOf]
  | cons kv rest ih =>
    intro acc
    rw [List.foldl_cons, ih (addPair acc kv), addPair_lookup kv k acc, valuesOf_cons]
    by_cases hk : k = kv.1
    · have hk2 : kv.1 = k := hk.symm
      rw [if_pos hk, if_pos hk2]
      cases h : lookupQ k acc with
      | none => simp
      | some vs => simp [List.append_assoc]
    · have hk2 : ¬ kv.1 = k := fun hh => hk hh.symm
      rw [if_neg hk, if_neg hk2]

lemma parse_qs_lookup (q k : List Char) :
    lookupQ k (parse_qs q) =
      if valuesOf k (parseQsl q) = [] then none
      else some (valuesOf k (parseQsl q)) := by
  unfold parse_qs
  rw [foldl_addPair_lookup k (parseQsl q) []]
  rfl

lemma keysQ_addPair (kv : List Char × List Char) :
    ∀ acc, keysQ (addPair acc kv) =
      if kv.1 ∈ keysQ acc then keysQ acc else keysQ acc ++ [kv.1] := by
  intro acc
  induction acc with
  | nil => simp [addPair, keysQ]
  | cons e rest ih =>
    rw [addPair_cons]
    by_cases he : e.1 = kv.1
    · rw [if_pos he]
      have hmem : kv.1 ∈ keysQ (e :: rest) := by
        rw [keysQ_cons]
        exact List.mem_cons.mpr (Or.inl he.symm)
      rw [if_pos hmem, keysQ_cons, keysQ_cons]
    · rw [if_neg he, keysQ_cons, keysQ_cons, ih]
      by_cases hm : kv.1 ∈ keysQ rest
      · rw [if_pos hm]
        have hm2 : kv.1 ∈ e.1 :: keysQ rest := List.mem_cons_of_mem _ hm
        rw [if_pos hm2]
      · rw [if_neg hm]
        have hm2 : kv.1 ∉ e.1 :: keysQ rest := by
          intro hc
          rcases List.mem_cons.mp hc with hc1 | hc2
          · exact he hc1.symm
          · exact hm hc2
        rw [if_neg hm2, List.cons_append]

lemma keysQ_foldl_nodup (pairs : List (List Char × List Char)) :
    ∀ acc, (keysQ acc).Nodup → (keysQ (pairs.foldl addPair acc)).Nodup := by
  induction pairs with
  | nil => intro acc h; exact h
  | cons kv rest ih =>
    intro acc h
    rw [List.foldl_cons]
    apply ih
    rw [keysQ_addPair]
    by_cases hm : kv.1 ∈ keysQ acc
    · rwa [if_pos hm]
    · rw [if_neg hm]
      exact List.Nodup.append h (List.nodup_singleton _)
        (fun a ha hu => hm (by rwa [List.mem_singleton.mp hu] at ha))

lemma setKey_cons (e : List Char × List (List Char)) (rest : List (List Char × List (List Char)))
    (key : List Char) (vals : List (List Char)) :
    setKey (e :: rest) key vals =
      if e.1 = key then (key, vals) :: rest else e :: setKey rest key vals := rfl

lemma setKey_lookup (key : List Char) (vals : List (List Char)) (k : List Char) :
    ∀ acc, lookupQ k (setKey acc key vals) =
      if k = key then some vals else lookupQ k acc := by
  intro acc
  induction acc with
  | nil =>
    show lookupQ k [(key, vals)] = _
    rw [lookupQ_cons]
    by_cases hk : k = key
    · rw [if_pos (show (key, vals).1 = k from hk.symm), if_pos hk]
    · rw [if_neg (show ¬ (key, vals).1 = k from fun h => hk h.symm), if_neg hk]
  | cons e rest ih =>
    rw [setKey_cons]
    by_cases he : e.1 = key
    · rw [if_pos he]
      by_cases hk : k = key
      · rw [if_pos hk, lookupQ_cons, if_pos (show (key, vals).1 = k from hk.symm)]
      · rw [if_neg hk, lookupQ_cons,
          if_neg (show ¬ (key, vals).1 = k from fun h => hk h.symm), lookupQ_cons]
        have hek : ¬ e.1 = k := fun h => hk (by rw [← h, he])
        rw [if_neg hek]
    · rw [if_neg he]
      by_cases hk : k = key
      · have hek : ¬ e.1 = k := fun h => he (by rw [h, hk])
        rw [if_pos hk, lookupQ_cons, if_neg hek, ih, if_pos hk]
      · rw [lookupQ_cons, ih, if_neg hk, if_neg hk, lookupQ_cons]

lemma setKey_keys (key : List Char) (vals : List (List Char)) :
    ∀ acc, keysQ (setKey acc key vals) =
      if key ∈ keysQ acc then keysQ acc else keysQ acc ++ [key] := by
  intro acc
  induction acc with
  | nil => simp [setKey, keysQ]
  | cons e rest ih =>
    rw [setKey_cons]
    by_cases he : e.1 = key
    · rw [if_pos he]
      have hmem : key ∈ keysQ (e :: rest) := by
        rw [keysQ_cons]
        exact List.mem_cons.mpr (Or.inl he.symm)
      rw [if_pos hmem, keysQ_cons, keysQ_cons, he]
    · rw [if_neg he, keysQ_cons, keysQ_cons, ih]
      by_cases hm : key ∈ keysQ rest
      · rw [if_pos hm]
        have hm2 : key ∈ e.1 :: keysQ rest := List.mem_cons_of_mem _ hm
        rw [if_pos hm2]
      · rw [if_neg hm]
        have hm2 : key ∉ e.1 :: keysQ rest := by
          intro hc
          rcases List.mem_cons.mp hc with hc1 | hc2
          · exact he hc1.symm
          · exact hm hc2
        rw [if_neg hm2, List.cons_append]

lemma mem_addPair {kv : List Char × List Char} :
    ∀ {acc} {e : List Char × List (List Char)}, e ∈ addPair acc kv →
      e ∈ acc ∨ (∃ e0 ∈ acc, e.1 = e0.1 ∧ e.2 = e0.2 ++ [kv.2]) ∨ e = (kv.1, [kv.2]) := by
  intro acc
  induction acc with
  | nil =>
    intro e he
    simp [addPair] at he
    exact Or.inr (Or.inr he)
  | cons e0 rest ih =>
    intro e he
    rw [addPair_cons] at he
    by_cases h0 : e0.1 = kv.1
    · rw [if_pos h0] at he
      rcases List.mem_cons.mp he with rfl | he2
      · exact Or.inr (Or.inl ⟨e0, List.mem_cons_self _ _, rfl, rfl⟩)
      · exact Or.inl (List.mem_cons_of_mem _ he2)
    · rw [if_neg h0] at he
      rcases List.mem_cons.mp he with rfl | he2
      · exact Or.inl (List.mem_cons_self _ _)
      · rcases ih he2 with h | h | h
        · exact Or.inl (List.mem_cons_of_mem _ h)
        · obtain ⟨x, hx, hh⟩ := h
          exact Or.inr (Or.inl ⟨x, List.mem_cons_of_mem _ hx, hh⟩)
        · exact Or.inr (Or.inr h)

lemma mem_setKey {key : List Char} {vals : List (List Char)} :
    ∀ {acc e}, e ∈ setKey acc key vals → e ∈ acc ∨ e = (key, vals) := by
  intro acc
  induction acc with
  | nil =>
    intro e he
    simp [setKey] at he
    exact Or.inr he
  | cons e0 rest ih =>
    intro e he
    rw [setKey_cons] at he
    by_cases h0 : e0.1 = key
    · rw [if_pos h0] at he
      rcases List.mem_cons.mp he with rfl | he2
      · exact Or.inr rfl
      · exact Or.inl (List.mem_cons_of_mem _ he2)
    · rw [if_neg h0] at he
      rcases List.mem_cons.mp he with rfl | he2
      · exact Or.inl (List.mem_cons_self _ _)
      · rcases ih he2 with h | h
        · exact Or.inl (List.mem_cons_of_mem _ h)
        · exact Or.inr h

/-- Invariant of the grouped entries of `parse_qs`: clean non-empty key,
and a non-empty list of clean non-empty values. -/
def entryOK (e : List Char × List (List Char)) : Prop :=
  '&' ∉ e.1 ∧ '=' ∉ e.1 ∧ e.2 ≠ [] ∧ ∀ v ∈ e.2, '&' ∉ v ∧ v ≠ []

lemma foldl_addPair_entries (pairs : List (List Char × List Char)) :
    ∀ acc, (∀ e ∈ acc, entryOK e) →
      (∀ kv ∈ pairs, '&' ∉ kv.1 ∧ '&' ∉ kv.2 ∧ '=' ∉ kv.1 ∧ kv.2 ≠ []) →
      ∀ e ∈ pairs.foldl addPair acc, entryOK e := by
  induction pairs with
  | nil => intro acc hacc _ e he; exact hacc e he
  | cons kv rest ih =>
    intro acc hacc hp e he
    rw [List.foldl_cons] at he
    refine ih (addPair acc kv) ?_ (fun x hx => hp x (List.mem_cons_of_mem _ hx)) e he
    intro e2 he2
    obtain ⟨pa, pb, pc, pd⟩ := hp kv (List.mem_cons_self _ _)
    rcases mem_addPair he2 with h | h | h
    · exact hacc e2 h
    · obtain ⟨e0, he0, h1, h2⟩ := h
      obtain ⟨ha, hb, hc, hd⟩ := hacc e0 he0
      refine ⟨?_, ?_, ?_, ?_⟩
      · rw [h1]; exact ha
      · rw [h1]; exact hb
      · rw [h2]; simp
      · intro v hv
        rw [h2] at hv
        rcases List.mem_append.mp hv with hv1 | hv2
        · exact hd v hv1
        · rw [List.mem_singleton.mp hv2]
          exact ⟨pb, pd⟩
    · subst h
      exact ⟨pa, pc, by simp, fun v hv => by
        rw [List.mem_singleton.mp hv]
        exact ⟨pb, pd⟩⟩

lemma headD_mem {α : Type} {l : List α} (h : l ≠ []) (d : α) : l.headD d ∈ l := by
  cases l with
  | nil => exact absurd rfl h
  | cons x xs => exact List.mem_cons_self x xs

lemma lookupQ_map_headD (k : List Char) (l : List (List Char × List (List Char))) :
    lookupQ k (l.map (fun e => (e.1, e.2.headD []))) =
      (lookupQ k l).map (fun vs => vs.headD []) := by
  induction l with
  | nil => rfl
  | cons e rest ih =>
    rw [List.map_cons, lookupQ_cons, lookupQ_cons]
    by_cases he : e.1 = k
    · rw [if_pos he, if_pos he]
      rfl
    · rw [if_neg he, if_neg he, ih]

lemma keysQ_map_headD (l : List (List Char × List (List Char))) :
    keysQ (l.map (fun e => (e.1, e.2.headD []))) = keysQ l := by
  unfold keysQ
  rw [List.map_map]
  rfl

lemma digitChar_isDigit {m : Nat} (h : m < 10) : (Nat.digitChar m).isDigit = true := by
  interval_cases m <;> decide

lemma natStrGo_digits : ∀ fuel n, ∀ c ∈ natStrGo fuel n, c.isDigit = true := by
  intro fuel
  induction fuel with
  | zero => intro n c hc; simp [natStrGo] at hc
  | succ f ih =>
    intro n c hc
    cases n with
    | zero => simp [natStrGo] at hc
    | succ m =>
      have heq : natStrGo (f+1) (m+1) =
          natStrGo f ((m+1) / 10) ++ [Nat.digitChar ((m+1) % 10)] := rfl
      rw [heq] at hc
      rcases List.mem_append.mp hc with h1 | h1
      · exact ih _ c h1
      · rw [List.mem_singleton.mp h1]
        exact digitChar_isDigit (Nat.mod_lt _ (by norm_num))

lemma natStr_digits (n : Nat) : ∀ c ∈ natStr n, c.isDigit = true := by
  unfold natStr
  by_cases h : n = 0
  · rw [if_pos h]
    intro c hc
    rw [List.mem_singleton.mp hc]
    decide
  · rw [if_neg h]
    exact natStrGo_digits (n+1) n

lemma natStr_ne_nil (n : Nat) : natStr n ≠ [] := by
  unfold natStr
  by_cases h : n = 0
  · rw [if_pos h]
    simp
  · rw [if_neg h]
    cases n with
    | zero => exact absurd rfl h
    | succ m =>
      have heq : natStrGo (m+2) (m+1) =
          natStrGo (m+1) ((m+1) / 10) ++ [Nat.digitChar ((m+1) % 10)] := rfl
      rw [heq]
      simp

lemma isDigit_ne_amp_eq {c : Char} (h : c.isDigit = true) : c ≠ '&' ∧ c ≠ '=' := by
  constructor <;> intro hc <;> subst hc <;> simp [Char.isDigit] at h

lemma intStr_ok (n : Int) : intStr n ≠ [] ∧ '&' ∉ intStr n ∧ '=' ∉ intStr n := by
  cases n with
  | ofNat m =>
    refine ⟨natStr_ne_nil m, ?_, ?_⟩
    · intro hmem
      exact (isDigit_ne_amp_eq (natStr_digits m _ hmem)).1 rfl
    · intro hmem
      exact (isDigit_ne_amp_eq (natStr_digits m _ hmem)).2 rfl
  | negSucc m =>
    refine ⟨by simp [intStr], ?_, ?_⟩
    · intro hmem
      rcases List.mem_cons.mp hmem with hc | hc
      · exact absurd hc (by decide)
      · exact (isDigit_ne_amp_eq (natStr_digits (m+1) _ hc)).1 rfl
    · intro hmem
      rcases List.mem_cons.mp hmem with hc | hc
      · exact absurd hc (by decide)
      · exact (isDigit_ne_amp_eq (natStr_digits (m+1) _ hc)).2 rfl

/-- C10: `with_page_param` leaves every non-query URL component unchanged
and rewrites the query so that the `page` parameter is `str(n)` (overwriting
any existing value), every other parameter resolves to its first non-empty
value from the input query (parameters with only empty values disappear),
each key occurs at most once, and no parameter carries an empty value. -/
theorem c10_with_page_param (u : Url) (n : Int) :
    (with_page_param u n).scheme = u.scheme ∧
    (with_page_param u n).netloc = u.netloc ∧
    (with_page_param u n).path = u.path ∧
    (with_page_param u n).params = u.params ∧
    (with_page_param u n).fragment = u.fragment ∧
    lookupQ ("page".data) (parseQsl (with_page_param u n).query) = some (intStr n) ∧
    (∀ k, ¬ k = "page".data →
      lookupQ k (parseQsl (with_page_param u n).query) = lookupQ k (parseQsl u.query)) ∧
    ((parseQsl (with_page_param u n).query).map Prod.fst).Nodup ∧
    (∀ kv ∈ parseQsl (with_page_param u n).query, kv.2 ≠ []) := by
  have hg_entries : ∀ e ∈ parse_qs u.query, entryOK e := by
    refine foldl_addPair_entries (parseQsl u.query) [] ?_ ?_
    · intro e he
      exact absurd he (List.not_mem_nil e)
    · exact parseQsl_props
  have hg2_entries : ∀ e ∈ setKey (parse_qs u.query) ("page".data) [intStr n], entryOK e := by
    intro e he
    rcases mem_setKey he with h | h
    · exact hg_entries e h
    · subst h
      obtain ⟨hi1, hi2, hi3⟩ := intStr_ok n
      refine ⟨?_, ?_, by simp, ?_⟩
      · show '&' ∉ "page".data
        decide
      · show '=' ∉ "page".data
        decide
      · intro v hv
        rw [List.mem_singleton.mp hv]
        exact ⟨hi2, hi1⟩
  have hfv_ok : ∀ kv ∈ (setKey (parse_qs u.query) ("page".data) [intStr n]).map
      (fun e => (e.1, e.2.headD [])),
      '&' ∉ kv.1 ∧ '&' ∉ kv.2 ∧ '=' ∉ kv.1 ∧ kv.2 ≠ [] := by
    intro kv hkv
    obtain ⟨e, he, hke⟩ := List.mem_map.mp hkv
    obtain ⟨h1, h2, h3, h4⟩ := hg2_entries e he
    obtain ⟨h5, h6⟩ := h4 _ (headD_mem h3 ([] : List Char))
    rw [← hke]
    exact ⟨h1, h5, h2, h6⟩
  have hout : (with_page_param u n).query =
      encodeQ ((setKey (parse_qs u.query) ("page".data) [intStr n]).map
        (fun e => (e.1, e.2.headD []))) := by
    show urlencodeFirst (setKey (parse_qs u.query) ("page".data) [intStr n]) = _
    exact urlencodeFirst_eq _
  have hround : parseQsl (with_page_param u n).query =
      (setKey (parse_qs u.query) ("page".data) [intStr n]).map
        (fun e => (e.1, e.2.headD [])) := by
    rw [hout]
    exact parseQsl_encodeQ hfv_ok
  refine ⟨rfl, rfl, rfl, rfl, rfl, ?_, ?_, ?_, ?_⟩
  · rw [hround, lookupQ_map_headD, setKey_lookup, if_pos rfl]
    rfl
  · intro k hk
    rw [hround, lookupQ_map_headD, setKey_lookup, if_neg hk, parse_qs_lookup,
      lookupQ_eq_head_valuesOf]
    cases hval : valuesOf k (parseQsl u.query) with
    | nil =>
      rw [if_pos rfl]
      rfl
    | cons v vs =>
      rw [if_neg (by simp)]
      rfl
  · show (keysQ (parseQsl (with_page_param u n).query)).Nodup
    rw [hround, keysQ_map_headD, setKey_keys]
    have hgnd : (keysQ (parse_qs u.query)).Nodup :=
      keysQ_foldl_nodup (parseQsl u.query) [] List.nodup_nil
    by_cases hm : "page".data ∈ keysQ (parse_qs u.query)
    · rwa [if_pos hm]
    · rw [if_neg hm]
      exact List.Nodup.append hgnd (List.nodup_singleton _)
        (fun a ha hu => hm (by rwa [List.mem_singleton.mp hu] at ha))
  · intro kv hkv
    rw [hround] at hkv
    exact (hfv_ok kv hkv).2.2.2

/-- C10 witness: on the concrete query `a=1&a=2&b=&c=3&page=7` with page
number 5, the `a` parameter keeps its first value. -/
def u10 : Url := ⟨"https", "example.com", "/w", "", "a=1&a=2&b=&c=3&page=7".data, ""⟩

theorem c10_with_page_param_witness :
    lookupQ ("a".data) (parseQsl (with_page_param u10 5).query) =
      lookupQ ("a".data) (parseQsl u10.query) :=
  (c10_with_page_param u10 5).2.2.2.2.2.2.1 ("a".data) (by decide)

/-- C8 witness: a concrete price string is stripped and comma-normalized,
and the result is a non-empty digits-and-dots string. -/
theorem c8_price_normalization_witness :
    ("1.299.00" : String).data =
      (((some "$1,299.00" : Option String).getD "").data.filter priceKeep).map commaToDot ∧
    ("1.299.00" : String) ≠ "" ∧ ∀ c ∈ ("1.299.00" : String).data, priceOut c = true :=
  (c8_price_normalization (some "$1,299.00")).2 "1.299.00" (by decide)

end Scraper
